import Mathlib

set_option maxRecDepth 4000

/-! Shallow embedding of the eslhelp PDF-translation pipeline.

Strings are modelled as `List Char`.  The remote collaborators (the Google
translation client, the Gemini generative model, and the pdf-parse extractor)
are modelled as explicit oracles: a rejected promise is `none` (or `.error`),
a fulfilled one is `some`/`.ok` carrying the payload.

Namespace `Ts` embeds `src/lib/translation.ts` (the current pipeline) together
with `src/lib/languages.ts`; namespace `Js` embeds `src/lib/translation.js`
(the legacy pipeline with the heuristic summariser and action-plan generator).
-/

/-- Sentence terminators recognised by the chunking regex `[^.!?]+[.!?]+`. -/
def isTerm (c : Char) : Bool :=
  c == '.' || c == '!' || c == '?'

/-- Whitespace as treated by JavaScript `trim` / `\s` (the ASCII part: space,
tab, line feed, carriage return, vertical tab, form feed). -/
def isWS (c : Char) : Bool :=
  c == ' ' || c == '\t' || c == '\n' || c == '\r' ||
  c == Char.ofNat 11 || c == Char.ofNat 12

/-- JavaScript `s.trim()`: strip whitespace from both ends of the string. -/
def trimJs (l : List Char) : List Char :=
  ((l.dropWhile isWS).reverse.dropWhile isWS).reverse

/-- One left-to-right pass of the global regex match
`text.match(/[^.!?]+[.!?]+/g)`.  `acc` holds the token built so far (reversed);
`inTerm` records whether the token has entered its `[.!?]+` run.  Characters
before any match position that cannot start `[^.!?]+` (leading terminators) are
skipped, and a trailing body that is never followed by a terminator is dropped,
exactly as the regex engine drops it. -/
def sentAux : List Char → List Char → Bool → List (List Char)
  | [], acc, inTerm => if inTerm then [acc.reverse] else []
  | c :: rest, acc, inTerm =>
    if isTerm c then
      if acc.isEmpty then sentAux rest [] false
      else sentAux rest (c :: acc) true
    else
      if inTerm then acc.reverse :: sentAux rest [c] false
      else sentAux rest (c :: acc) false

/-- All matches of `/[^.!?]+[.!?]+/g` on `text`, in order. -/
def sentSplit (text : List Char) : List (List Char) :=
  sentAux text [] false

/-- The `text.match(...) || [text]` fallback: when the regex finds no sentence,
the whole text is the single token. -/
def sentencesOf (text : List Char) : List (List Char) :=
  if sentSplit text = [] then [text] else sentSplit text

/-- An action-plan item (`ActionItem` of translation.ts; the items built by
translation.js have the same shape minus the optional field).  `priority` is
the literal string of the source (`high`, `medium` or `low`);
`professionalType` is the optional professional hint. -/
structure ActionItem where
  step : List Char
  description : List Char
  priority : List Char
  professionalType : Option (List Char)
deriving DecidableEq

namespace Ts

/-- Loop of `chunkText` (translation.ts lines 81-94) over the sentence tokens:
accumulate sentences into `current`; when the next sentence would overflow,
flush `current` (trimmed), or hard-split a single oversized sentence at the
size boundary; finally flush a non-whitespace remainder (trimmed). -/
def chunkAux (maxSize : Nat) : List (List Char) → List Char → List (List Char)
  | [], current => if trimJs current = [] then [] else [trimJs current]
  | s :: ss, current =>
    if maxSize < current.length + s.length then
      if current = [] then
        s.take maxSize :: chunkAux maxSize ss (s.drop maxSize)
      else
        trimJs current :: chunkAux maxSize ss s
    else
      chunkAux maxSize ss (current ++ s)

/-- `chunkText` of translation.ts: split text on sentence boundaries so chunks
stay under the limit. -/
def chunkText (text : List Char) (maxSize : Nat) : List (List Char) :=
  chunkAux maxSize (sentencesOf text) []

/-- A remote `translationClient.translateText` request: the oracle receives the
request content and the target language code; `none` models a rejected call,
`some t` a response whose `translations[0].translatedText` is `t` (with `[]`
modelling an empty payload).  The `sourceLanguageCode` is threaded through the
repository unchanged (always `en`) and is omitted. -/
def Oracle : Type :=
  List Char → List Char → Option (List Char)

/-- The inner `translate` closure of `translateText`: one remote call, turning
an empty `translatedText` payload into a failure. -/
def translateCall (oracle : Oracle) (target content : List Char) : Option (List Char) :=
  match oracle content target with
  | none => none
  | some t => if t = [] then none else some t

/-- `Promise.all` over one call per chunk: succeeds with all results in order
if and only if every call succeeds. -/
def allCalls (g : List Char → Option (List Char)) : List (List Char) → Option (List (List Char))
  | [] => some []
  | c :: cs =>
    match g c, allCalls g cs with
    | some t, some ts => some (t :: ts)
    | _, _ => none

/-- `translateText` of translation.ts: one remote call for text within the
25,000-character limit, otherwise one call per chunk joined with single
spaces.  The second component is the list of remote-call payloads issued
(`Promise.all` issues every per-chunk call). -/
def translateText (oracle : Oracle) (text target : List Char) :
    Option (List Char) × List (List Char) :=
  if text.length ≤ 25000 then
    (translateCall oracle target text, [text])
  else
    ((allCalls (translateCall oracle target) (chunkText text 25000)).map
      (fun ts => List.intercalate [' '] ts),
     chunkText text 25000)

/-- Translation of one action item inside `translateActionPlan`: both fields
are translated (`Promise.all` issues both calls), and the item is rebuilt with
`{...item, step, description}`. -/
def translateItem (oracle : Oracle) (target : List Char) (item : ActionItem) :
    Option ActionItem × List (List Char) :=
  let s := translateText oracle item.step target
  let d := translateText oracle item.description target
  (match s.1, d.1 with
   | some s1, some d1 => some { item with step := s1, description := d1 }
   | _, _ => none,
   s.2 ++ d.2)

/-- `translateActionPlan` of translation.ts: `Promise.all` over the items. -/
def translateActionPlan (oracle : Oracle) (plan : List ActionItem) (target : List Char) :
    Option (List ActionItem) × List (List Char) :=
  match plan with
  | [] => (some [], [])
  | item :: rest =>
    let r := translateItem oracle target item
    let rs := translateActionPlan oracle rest target
    ((match r.1, rs.1 with
      | some r1, some rest1 => some (r1 :: rest1)
      | _, _ => none),
     r.2 ++ rs.2)

end Ts

/-- `LanguageConfig` of languages.ts. -/
structure LanguageConfig where
  key : List Char
  label : List Char
  code : List Char
  flag : List Char

/-- `SUPPORTED_LANGUAGES` of languages.ts (flags are the two regional-indicator
code points of each emoji). -/
def SUPPORTED_LANGUAGES : List LanguageConfig :=
  [⟨"spanish".toList, "Spanish".toList, "es".toList,
    [Char.ofNat 0x1F1EA, Char.ofNat 0x1F1F8]⟩,
   ⟨"french".toList, "French".toList, "fr".toList,
    [Char.ofNat 0x1F1EB, Char.ofNat 0x1F1F7]⟩,
   ⟨"mandarin".toList, "Mandarin".toList, "zh-CN".toList,
    [Char.ofNat 0x1F1E8, Char.ofNat 0x1F1F3]⟩]

/-- `getLanguageCode` of languages.ts:
`SUPPORTED_LANGUAGES.find(l => l.key === key.toLowerCase())?.code`. -/
def getLanguageCode (key : List Char) : Option (List Char) :=
  (SUPPORTED_LANGUAGES.find? (fun l => l.key == key.map Char.toLower)).map
    (fun l => l.code)

namespace Ts

/-- The parsed shape of the Gemini response (`LLMOutput` of translation.ts). -/
structure LLMOutput where
  summary : List Char
  actionPlan : List ActionItem

/-- `ProcessingResult` of translation.ts (the `success: true` variant). -/
structure ProcessingResult where
  translatedSummary : List Char
  actionPlan : List ActionItem
  targetLanguage : List Char
  summaryLength : Nat
  originalLength : Nat
  timestamp : List Char

/-- `ProcessingError` of translation.ts (the `success: false` variant). -/
structure ProcessingError where
  error : List Char
  timestamp : List Char

/-- `ProcessingOutput` of translation.ts, discriminated by the `success`
boolean of the source. -/
inductive ProcessingOutput where
  | success (r : ProcessingResult)
  | error (e : ProcessingError)

/-- Which external collaborators a pipeline run invoked: whether PDF
extraction ran, whether the Gemini generation call ran, and the payloads of
every remote translation call issued. -/
structure PipelineTrace where
  extractCalled : Bool
  genCalled : Bool
  translateCalls : List (List Char)

/-- `extractTextFromPDF` of translation.ts.  `raw` is what `readFileSync` plus
`pdf-parse` produced for the given path: `.error` a thrown error, `.ok t` the
extracted `data.text`.  Empty or whitespace-only text becomes a failure. -/
def extractTextFromPDF (raw : Except (List Char) (List Char)) :
    Except (List Char) (List Char) :=
  match raw with
  | .error e => .error e
  | .ok t =>
    if trimJs t = [] then
      .error ("No text could be extracted from this PDF. It may be scanned image-only.".toList)
    else
      .ok t

/-- `processPDFDocument` of translation.ts: resolve the language, extract,
generate, translate summary and action plan in parallel, and assemble the
result; every thrown error is caught at this boundary and becomes the error
variant.  `gen` models `generateSummaryAndActions` (the Gemini call together
with its JSON parsing and shape validation): `.error` any of its failure
modes, `.ok` the validated output.  `now` is the timestamp the run would
produce. -/
def processPDFDocument (oracle : Oracle) (raw : Except (List Char) (List Char))
    (gen : List Char → Except (List Char) LLMOutput)
    (targetLanguage now : List Char) : ProcessingOutput × PipelineTrace :=
  match getLanguageCode targetLanguage with
  | none =>
    (.error ⟨"Unsupported language: ".toList ++ targetLanguage, now⟩,
     ⟨false, false, []⟩)
  | some langCode =>
    match extractTextFromPDF raw with
    | .error e => (.error ⟨e, now⟩, ⟨true, false, []⟩)
    | .ok fullText =>
      match gen fullText with
      | .error e => (.error ⟨e, now⟩, ⟨true, true, []⟩)
      | .ok out =>
        match (translateText oracle out.summary langCode).1,
              (translateActionPlan oracle out.actionPlan langCode).1 with
        | some ts, some tp =>
          (.success ⟨ts, tp, targetLanguage, ts.length, fullText.length, now⟩,
           ⟨true, true, (translateText oracle out.summary langCode).2 ++
              (translateActionPlan oracle out.actionPlan langCode).2⟩)
        | _, _ =>
          (.error ⟨"Translation failed".toList, now⟩,
           ⟨true, true, (translateText oracle out.summary langCode).2 ++
              (translateActionPlan oracle out.actionPlan langCode).2⟩)

end Ts

namespace Js

/-- Loop of `chunkText` (translation.js lines 70-87).  Identical to the ts
version except for the final flush: `if (currentChunk)` pushes the trimmed
remainder whenever the untrimmed remainder is non-empty. -/
def chunkAux (maxSize : Nat) : List (List Char) → List Char → List (List Char)
  | [], current => if current = [] then [] else [trimJs current]
  | s :: ss, current =>
    if maxSize < current.length + s.length then
      if current = [] then
        s.take maxSize :: chunkAux maxSize ss (s.drop maxSize)
      else
        trimJs current :: chunkAux maxSize ss s
    else
      chunkAux maxSize ss (current ++ s)

/-- `chunkText` of translation.js. -/
def chunkText (text : List Char) (maxSize : Nat) : List (List Char) :=
  chunkAux maxSize (sentencesOf text) []

/-- A remote translation call of translation.js.  The target language code may
be `undefined` (`none`) when `generateActionPlan` looks up an unknown key;
`none` as a result models a rejected call.  Unlike the ts version the js code
does not check the returned `translatedText` for emptiness. -/
def Oracle : Type :=
  List Char → Option (List Char) → Option (List Char)

/-- The sequential `for`-loop over chunks in `translateText` (translation.js
lines 46-57): calls are awaited one at a time, so the first rejection stops
the loop and later chunks are never sent.  Returns the translations (if all
succeeded) and the payloads actually sent. -/
def seqCalls (oracle : Oracle) (target : Option (List Char)) :
    List (List Char) → Option (List (List Char)) × List (List Char)
  | [] => (some [], [])
  | c :: cs =>
    match oracle c target with
    | none => (none, [c])
    | some t =>
      let r := seqCalls oracle target cs
      (r.1.map (fun ts => t :: ts), c :: r.2)

/-- `translateText` of translation.js: one call within the 25,000-character
limit, otherwise sequential per-chunk calls joined with single spaces.  Any
rejection propagates (wrapped in a `Translation failed:` message by the
source; messages are not modelled here).  The second component lists the
payloads sent. -/
def translateText (oracle : Oracle) (text : List Char) (target : Option (List Char)) :
    Option (List Char) × List (List Char) :=
  if text.length ≤ 25000 then
    (oracle text target, [text])
  else
    let r := seqCalls oracle target (chunkText text 25000)
    (r.1.map (fun ts => List.intercalate [' '] ts), r.2)

/-- `SUPPORTED_LANGUAGES` of translation.js (an object used as a map). -/
def SUPPORTED_LANGUAGES : List (List Char × List Char) :=
  [("spanish".toList, "es".toList),
   ("french".toList, "fr".toList),
   ("mandarin".toList, "zh-CN".toList)]

/-- `SUPPORTED_LANGUAGES[key]` of translation.js: exact-key object lookup,
`none` modelling `undefined`. -/
def lookupLang (key : List Char) : Option (List Char) :=
  (SUPPORTED_LANGUAGES.find? (fun p => p.1 == key)).map (fun p => p.2)

/-- `extractTextFromPDF` of translation.js: wraps any read/parse error; no
emptiness check here (the pipeline performs it). -/
def extractTextFromPDF (raw : Except (List Char) (List Char)) :
    Except (List Char) (List Char) :=
  match raw with
  | .error e => .error ("Failed to extract text from PDF: ".toList ++ e)
  | .ok t => .ok t

/-- Whitespace-run collapsing of `text.replace(/\s+/g, ' ')`: every maximal
whitespace run becomes a single space.  `prevWs` records whether the previous
character belonged to a run already replaced. -/
def collapseWsAux : List Char → Bool → List Char
  | [], _ => []
  | c :: rest, prevWs =>
    if isWS c then
      if prevWs then collapseWsAux rest true
      else ' ' :: collapseWsAux rest true
    else
      c :: collapseWsAux rest false

/-- `text.replace(/\s+/g, ' ')`. -/
def collapseWs (l : List Char) : List Char :=
  collapseWsAux l false

/-- Sentence-accumulation loop of `summarizeText` (translation.js lines
97-103): append trimmed sentences (plus a space) until the next one would
exceed `maxLength`, then stop. -/
def summarizeLoop (maxLength : Nat) : List (List Char) → List Char → List Char
  | [], acc => acc
  | s :: ss, acc =>
    if maxLength < (acc ++ trimJs s).length then acc
    else summarizeLoop maxLength ss (acc ++ trimJs s ++ [' '])

/-- `summarizeText` of translation.js: normalise whitespace, take leading
sentences up to `maxLength`, and fall back to a raw prefix plus `...` when the
sentence-based summary is degenerate. -/
def summarizeText (text : List Char) (maxLength : Nat) : List Char :=
  let cleanText := trimJs (collapseWs text)
  let sentences := sentencesOf cleanText
  let summary := summarizeLoop maxLength sentences []
  let summary2 :=
    if summary.length < 100 ∧ 100 < cleanText.length then
      cleanText.take maxLength ++ "...".toList
    else summary
  trimJs summary2

/-- Substring test modelling JavaScript `String.prototype.includes`:
`startsWithCh needle hay` checks `needle` at the front of `hay`. -/
def startsWithCh : List Char → List Char → Bool
  | [], _ => true
  | _ :: _, [] => false
  | a :: as, b :: bs => a == b && startsWithCh as bs

/-- `hay.includes(needle)`. -/
def containsSub (needle : List Char) : List Char → Bool
  | [] => needle.isEmpty
  | c :: rest => startsWithCh needle (c :: rest) || containsSub needle rest

/-- `detectDocumentType` of translation.js: keyword dispatch on the lowercased
document text. -/
def detectDocumentType (text : List Char) : List Char :=
  let lowerText := text.map Char.toLower
  if containsSub ("agreement".toList) lowerText || containsSub ("contract".toList) lowerText then
    "legal".toList
  else if containsSub ("report".toList) lowerText || containsSub ("analysis".toList) lowerText then
    "report".toList
  else if containsSub ("invoice".toList) lowerText || containsSub ("payment".toList) lowerText then
    "financial".toList
  else if containsSub ("proposal".toList) lowerText || containsSub ("recommendation".toList) lowerText then
    "proposal".toList
  else if containsSub ("policy".toList) lowerText || containsSub ("procedure".toList) lowerText then
    "policy".toList
  else if containsSub ("minutes".toList) lowerText || containsSub ("meeting".toList) lowerText then
    "meeting".toList
  else if containsSub ("research".toList) lowerText || containsSub ("study".toList) lowerText then
    "research".toList
  else
    "general".toList

/-- The stop-word set of `extractKeyTerms`. -/
def commonWords : List (List Char) :=
  ["the", "a", "an", "and", "or", "but", "in", "on", "at", "to", "for",
   "of", "with", "by", "from", "as", "is", "was", "are", "were", "be",
   "been", "being", "have", "has", "had", "do", "does", "did", "will",
   "would", "should", "could", "may", "might", "must", "can", "this",
   "that", "these", "those", "i", "you", "he", "she", "it", "we",
   "they"].map String.toList

/-- The `\w` character class (ASCII word characters). -/
def isWordChar (c : Char) : Bool :=
  ('a' ≤ c && c ≤ 'z') || ('A' ≤ c && c ≤ 'Z') || ('0' ≤ c && c ≤ '9') || c == '_'

/-- Whitespace splitting for `split(/\s+/)`.  The empty fragments the JS split
produces at the string ends are omitted: the caller keeps only words longer
than three characters, so they never survive. -/
def splitWsAux : List Char → List Char → List (List Char)
  | [], acc => if acc = [] then [] else [acc.reverse]
  | c :: rest, acc =>
    if isWS c then
      if acc = [] then splitWsAux rest []
      else acc.reverse :: splitWsAux rest []
    else
      splitWsAux rest (c :: acc)

/-- `split(/\s+/)` (up to empty fragments, see `splitWsAux`). -/
def splitWs (l : List Char) : List (List Char) :=
  splitWsAux l []

/-- One `wordCount[word] = (wordCount[word] || 0) + 1` update, keeping the
first-occurrence ordering of the object keys.  (JS object enumeration would
move integer-like keys first; no word tallied in this development is an
integer-like key.) -/
def bump (w : List Char) : List (List Char × Nat) → List (List Char × Nat)
  | [] => [(w, 1)]
  | (x, n) :: rest =>
    if x == w then (x, n + 1) :: rest else (x, n) :: bump w rest

/-- The word-count table of `extractKeyTerms`, in first-occurrence order. -/
def tally : List (List Char) → List (List Char × Nat) → List (List Char × Nat)
  | [], acc => acc
  | w :: ws, acc => tally ws (bump w acc)

/-- Stable insertion for a descending sort by count: a new entry goes after
every entry with a count at least as large, which is exactly the order a
stable `sort((a, b) => b[1] - a[1])` produces. -/
def insertDesc (p : List Char × Nat) : List (List Char × Nat) → List (List Char × Nat)
  | [] => [p]
  | q :: rest => if q.2 < p.2 then p :: q :: rest else q :: insertDesc p rest

/-- Stable descending sort by count (the semantics of the stable JS
`Array.prototype.sort` with comparator `(a, b) => b[1] - a[1]`). -/
def sortDesc (l : List (List Char × Nat)) : List (List Char × Nat) :=
  l.foldl (fun acc p => insertDesc p acc) []

/-- `extractKeyTerms` of translation.js: lowercase, strip non-word characters,
split, drop short and common words, count, and take the ten most frequent. -/
def extractKeyTerms (text : List Char) : List (List Char) :=
  let words :=
    (splitWs ((text.map Char.toLower).map
      (fun c => if isWordChar c || isWS c then c else ' '))).filter
      (fun w => decide (3 < w.length) && !(commonWords.contains w))
  ((sortDesc (tally words [])).take 10).map (fun p => p.1)

/-- `keyTerms.slice(0, 3).join(', ')`. -/
def keyTermsJoin (keyTerms : List (List Char)) : List Char :=
  List.intercalate (", ".toList) (keyTerms.take 3)

/-- The `switch (docType)` of `generateActionPlan` (translation.js lines
166-325): one fixed template per document type, with the top key terms spliced
into the first description.  The js items carry no `professionalType`. -/
def planForType (docType : List Char) (keyTerms : List (List Char)) : List ActionItem :=
  let k3 := keyTermsJoin keyTerms
  if docType = "legal".toList then
    [⟨"Review legal terms and obligations".toList,
      ("Carefully examine all contractual obligations, deadlines, and legal requirements mentioned in the document. Pay special attention to terms related to: ".toList
        ++ k3 ++ ".".toList),
      "high".toList, none⟩,
     ⟨"Consult with legal counsel".toList,
      "Schedule a meeting with your legal team to discuss implications and ensure full understanding of all clauses before proceeding.".toList,
      "high".toList, none⟩,
     ⟨"Create compliance checklist".toList,
      "Develop a detailed checklist of all requirements and deadlines to ensure nothing is missed during implementation.".toList,
      "medium".toList, none⟩]
  else if docType = "financial".toList then
    [⟨"Verify all financial figures".toList,
      ("Cross-check all amounts, calculations, and financial data for accuracy. Focus on items related to: ".toList
        ++ k3 ++ ".".toList),
      "high".toList, none⟩,
     ⟨"Process payment or billing".toList,
      "Initiate necessary payment procedures or update accounting records according to the document details.".toList,
      "high".toList, none⟩,
     ⟨"Archive for record-keeping".toList,
      "File the document in your financial records system and set reminders for any recurring payments or reviews.".toList,
      "medium".toList, none⟩]
  else if docType = "report".toList then
    [⟨"Analyze key findings and data".toList,
      ("Review the main conclusions and data points, especially those concerning: ".toList
        ++ k3 ++ ". Identify trends and patterns.".toList),
      "high".toList, none⟩,
     ⟨"Share with relevant stakeholders".toList,
      "Distribute the report to team members and departments who need to be informed of these findings.".toList,
      "medium".toList, none⟩,
     ⟨"Develop action items from recommendations".toList,
      "Create specific tasks based on the report recommendations and assign responsibilities with deadlines.".toList,
      "medium".toList, none⟩]
  else if docType = "proposal".toList then
    [⟨"Evaluate proposal feasibility".toList,
      ("Assess the viability and resource requirements of the proposed ideas, particularly regarding: ".toList
        ++ k3 ++ ".".toList),
      "high".toList, none⟩,
     ⟨"Gather stakeholder feedback".toList,
      "Present the proposal to key decision-makers and collect their input, concerns, and suggestions.".toList,
      "high".toList, none⟩,
     ⟨"Create implementation roadmap".toList,
      "If approved, develop a detailed timeline and resource allocation plan for executing the proposal.".toList,
      "medium".toList, none⟩]
  else if docType = "policy".toList then
    [⟨"Understand policy requirements".toList,
      ("Thoroughly review all policy guidelines and requirements, especially those related to: ".toList
        ++ k3 ++ ".".toList),
      "high".toList, none⟩,
     ⟨"Communicate to affected parties".toList,
      "Inform all employees or individuals affected by this policy and provide necessary training or guidance.".toList,
      "high".toList, none⟩,
     ⟨"Implement compliance measures".toList,
      "Set up systems and processes to ensure ongoing compliance with the policy requirements.".toList,
      "medium".toList, none⟩]
  else if docType = "meeting".toList then
    [⟨"Follow up on action items".toList,
      ("Review all assigned tasks from the meeting and send reminders to responsible parties. Priority topics include: ".toList
        ++ k3 ++ ".".toList),
      "high".toList, none⟩,
     ⟨"Distribute meeting minutes".toList,
      "Share the meeting summary with all attendees and relevant stakeholders who were unable to attend.".toList,
      "medium".toList, none⟩,
     ⟨"Schedule follow-up meeting".toList,
      "If needed, schedule a follow-up session to track progress on decisions and action items.".toList,
      "low".toList, none⟩]
  else if docType = "research".toList then
    [⟨"Validate research methodology".toList,
      ("Review the research approach and data collection methods. Consider implications for: ".toList
        ++ k3 ++ ".".toList),
      "high".toList, none⟩,
     ⟨"Apply findings to current work".toList,
      "Identify how the research conclusions can be integrated into ongoing projects or inform future decisions.".toList,
      "medium".toList, none⟩,
     ⟨"Share insights with team".toList,
      "Present relevant findings to your team and discuss potential applications or further research needs.".toList,
      "medium".toList, none⟩]
  else
    [⟨"Review complete document thoroughly".toList,
      ("Read through the entire document carefully, paying attention to sections about: ".toList
        ++ k3 ++ ". Note any questions or unclear points.".toList),
      "high".toList, none⟩,
     ⟨"Identify key stakeholders".toList,
      "Determine who needs to be informed or consulted about this document and reach out to them promptly.".toList,
      "medium".toList, none⟩,
     ⟨"Take required actions".toList,
      "Complete any tasks, decisions, or responses indicated in the document within specified timeframes.".toList,
      "medium".toList, none⟩]

/-- The hardcoded plan returned by the `catch` block of `generateActionPlan`
(translation.js lines 339-355) whenever anything in the try block throws —
including a failed translation of an item.  The items are English. -/
def fallbackPlan : List ActionItem :=
  [⟨"Review the full document".toList,
    "Read through the complete document to understand all details and context.".toList,
    "high".toList, none⟩,
   ⟨"Identify key stakeholders".toList,
    "Determine who needs to be informed or involved based on the document content.".toList,
    "medium".toList, none⟩,
   ⟨"Create implementation timeline".toList,
    "Develop a timeline for any actions or decisions mentioned in the document.".toList,
    "medium".toList, none⟩]

/-- The sequential translation loop of `generateActionPlan` (translation.js
lines 329-332): for each item in order, translate `step` then `description`
via `translateText`; the first rejection aborts the loop (the thrown error
reaches the enclosing catch).  Returns the translated items (if every call
succeeded) and the translation payloads sent. -/
def translatePlanLoop (oracle : Oracle) (langCode : Option (List Char)) :
    List ActionItem → Option (List ActionItem) × List (List Char)
  | [] => (some [], [])
  | item :: rest =>
    let s := translateText oracle item.step langCode
    match s.1 with
    | none => (none, s.2)
    | some s1 =>
      let d := translateText oracle item.description langCode
      match d.1 with
      | none => (none, s.2 ++ d.2)
      | some d1 =>
        let r := translatePlanLoop oracle langCode rest
        (r.1.map (fun tail => { item with step := s1, description := d1 } :: tail),
         s.2 ++ d.2 ++ r.2)

/-- `generateActionPlan` of translation.js: classify the document, build the
template plan, translate it in place when the target is not `en` — and, on
any thrown error, fall back to the hardcoded English plan (the run still
succeeds).  Returns the plan and the translation payloads sent. -/
def generateActionPlan (oracle : Oracle) (summary targetLanguage fullText : List Char) :
    List ActionItem × List (List Char) :=
  let docType := detectDocumentType (if fullText = [] then summary else fullText)
  let keyTerms := extractKeyTerms summary
  let actionPlan := planForType docType keyTerms
  if targetLanguage = "en".toList then (actionPlan, [])
  else
    let langCode := lookupLang targetLanguage
    let r := translatePlanLoop oracle langCode actionPlan
    match r.1 with
    | some plan => (plan, r.2)
    | none => (fallbackPlan, r.2)

/-- The `success: true` result of `processPDFDocument` in translation.js. -/
structure ProcessingResult where
  originalText : List Char
  originalLength : Nat
  summary : List Char
  summaryLength : Nat
  translatedSummary : List Char
  actionPlan : List ActionItem
  targetLanguage : List Char
  languageCode : List Char
  timestamp : List Char

/-- The `success: false` result of `processPDFDocument` in translation.js. -/
structure ProcessingError where
  error : List Char
  timestamp : List Char

/-- The result union of translation.js, discriminated by `success`. -/
inductive ProcessingOutput where
  | success (r : ProcessingResult)
  | error (e : ProcessingError)

/-- `processPDFDocument` of translation.js (default options: summary length
1000, source language `en`): resolve the language, extract, heuristically
summarise, translate the summary, then generate (and translate) the action
plan.  Every error thrown up to this boundary becomes the error variant —
but `generateActionPlan` swallows its own errors first.  Returns the output
plus every translation payload sent. -/
def processPDFDocument (oracle : Oracle) (raw : Except (List Char) (List Char))
    (targetLanguage now : List Char) (summaryLength : Nat) :
    ProcessingOutput × List (List Char) :=
  match lookupLang (targetLanguage.map Char.toLower) with
  | none =>
    (.error ⟨"Unsupported language: ".toList ++ targetLanguage
        ++ ". Supported languages: spanish, french, mandarin".toList, now⟩, [])
  | some langCode =>
    match extractTextFromPDF raw with
    | .error e => (.error ⟨e, now⟩, [])
    | .ok fullText =>
      if trimJs fullText = [] then
        (.error ⟨"No text could be extracted from the PDF".toList, now⟩, [])
      else
        let summary := summarizeText fullText summaryLength
        let tr := translateText oracle summary (some langCode)
        match tr.1 with
        | none => (.error ⟨"Translation failed".toList, now⟩, tr.2)
        | some translatedSummary =>
          let gp := generateActionPlan oracle summary targetLanguage fullText
          (.success ⟨fullText, fullText.length, summary, summary.length,
              translatedSummary, gp.1, targetLanguage, langCode, now⟩,
           tr.2 ++ gp.2)

end Js

/-- Document text of the concrete legacy-pipeline run used to refute the
all-or-nothing claim: its summary is the text itself, and the keyword
`agreement` selects the legal template. -/
def c5Text : List Char :=
  "This agreement is legal. Sign it.".toList

/-- Translation oracle of that run: the remote service translates the summary
but rejects every other payload — in particular the first action-item step. -/
def c5Oracle : Js.Oracle :=
  fun content _ => if content = c5Text then some ("OK".toList) else none

/-- A string produced by the sentence regex: it ends in a terminator. -/
def EndsInTerm (s : List Char) : Prop :=
  ∃ r c, s = r ++ [c] ∧ isTerm c = true

/-- Total length of a list of sentence tokens. -/
def sumLen (ss : List (List Char)) : Nat :=
  (ss.map List.length).sum

lemma isTerm_not_isWS {c : Char} (h : isTerm c = true) : isWS c = false := by
  have h' : (c = '.' ∨ c = '!') ∨ c = '?' := by
    simpa [isTerm, Bool.or_eq_true, beq_iff_eq] using h
  rcases h' with (rfl | rfl) | rfl <;> decide

lemma mem_dropWhile_of_not (p : Char → Bool) :
    ∀ (l : List Char) (c : Char), c ∈ l → p c = false → c ∈ l.dropWhile p := by
  intro l
  induction l with
  | nil => intro c hc _; simp at hc
  | cons a rest ih =>
    intro c hc hp
    by_cases ha : p a
    · rcases List.mem_cons.mp hc with rfl | hmem
      · rw [ha] at hp; cases hp
      · simpa [List.dropWhile_cons, ha] using ih c hmem hp
    · simpa [List.dropWhile_cons, ha] using hc

lemma trimJs_ne_nil {l : List Char} {c : Char} (hc : c ∈ l) (hw : isWS c = false) :
    trimJs l ≠ [] := by
  unfold trimJs
  intro h
  rw [List.reverse_eq_nil_iff, List.dropWhile_eq_nil_iff] at h
  have h2 : c ∈ (l.dropWhile isWS).reverse :=
    List.mem_reverse.mpr (mem_dropWhile_of_not isWS l c hc hw)
  have := h c h2
  rw [hw] at this
  cases this

lemma trimJs_length_le (l : List Char) : (trimJs l).length ≤ l.length := by
  unfold trimJs
  have h1 : (l.dropWhile isWS).length ≤ l.length :=
    (List.dropWhile_sublist isWS).length_le
  have h2 : ((l.dropWhile isWS).reverse.dropWhile isWS).length ≤
      (l.dropWhile isWS).reverse.length :=
    (List.dropWhile_sublist isWS).length_le
  simp only [List.length_reverse] at h2 ⊢
  omega

lemma endsInTerm_trim_ne {s : List Char} (h : EndsInTerm s) : trimJs s ≠ [] := by
  obtain ⟨r, c, rfl, hc⟩ := h
  exact trimJs_ne_nil (by simp) (isTerm_not_isWS hc)

lemma endsInTerm_ne_nil {s : List Char} (h : EndsInTerm s) : s ≠ [] := by
  obtain ⟨r, c, rfl, _⟩ := h
  simp

lemma endsInTerm_drop {s : List Char} {n : Nat} (h : EndsInTerm s) (hn : n < s.length) :
    EndsInTerm (s.drop n) := by
  obtain ⟨r, c, rfl, hc⟩ := h
  have hn' : n ≤ r.length := by
    simp only [List.length_append, List.length_singleton] at hn
    omega
  exact ⟨r.drop n, c, by rw [List.drop_append_of_le_length hn'], hc⟩

lemma endsInTerm_append {s t : List Char} (h : EndsInTerm t) : EndsInTerm (s ++ t) := by
  obtain ⟨r, c, rfl, hc⟩ := h
  exact ⟨s ++ r, c, by simp, hc⟩

lemma sentAux_endsInTerm (l : List Char) :
    ∀ (acc : List Char) (b : Bool),
      (b = true → ∃ c r, acc = c :: r ∧ isTerm c = true) →
      ∀ s ∈ sentAux l acc b, EndsInTerm s := by
  induction l with
  | nil =>
    intro acc b hb s hs
    cases b with
    | false => simp [sentAux] at hs
    | true =>
      simp only [sentAux, if_true, List.mem_singleton] at hs
      obtain ⟨c, r, hacc, hc⟩ := hb rfl
      exact ⟨r.reverse, c, by rw [hs, hacc, List.reverse_cons], hc⟩
  | cons c rest ih =>
    intro acc b hb s hs
    by_cases hc : isTerm c
    · by_cases ha : acc.isEmpty
      · simp only [sentAux, hc, ha, if_true] at hs
        exact ih [] false (by simp) s hs
      · simp only [sentAux, hc, ha, if_true, Bool.false_eq_true, if_false] at hs
        exact ih (c :: acc) true (fun _ => ⟨c, acc, rfl, hc⟩) s hs
    · have hc' : isTerm c = false := by simpa using hc
      cases b with
      | true =>
        simp only [sentAux, hc', Bool.false_eq_true, if_false, if_true,
          List.mem_cons] at hs
        rcases hs with rfl | hs
        · obtain ⟨c0, r, hacc, hc0⟩ := hb rfl
          exact ⟨r.reverse, c0, by rw [hacc, List.reverse_cons], hc0⟩
        · exact ih [c] false (by simp) s hs
      | false =>
        simp only [sentAux, hc', Bool.false_eq_true, if_false] at hs
        exact ih (c :: acc) false (by simp) s hs

lemma sentSplit_endsInTerm {text : List Char} :
    ∀ s ∈ sentSplit text, EndsInTerm s :=
  sentAux_endsInTerm text [] false (by simp)

lemma sentAux_sumLen (l : List Char) :
    ∀ (acc : List Char) (b : Bool), sumLen (sentAux l acc b) ≤ l.length + acc.length := by
  induction l with
  | nil =>
    intro acc b
    cases b <;> simp [sentAux, sumLen]
  | cons c rest ih =>
    intro acc b
    by_cases hc : isTerm c
    · by_cases ha : acc.isEmpty
      · simp only [sentAux, hc, ha, if_true]
        have := ih [] false
        simp only [List.length_nil] at this
        simp only [List.length_cons]
        omega
      · simp only [sentAux, hc, ha, if_true, Bool.false_eq_true, if_false]
        have := ih (c :: acc) true
        simp only [List.length_cons] at this ⊢
        omega
    · have hc' : isTerm c = false := by simpa using hc
      cases b with
      | true =>
        simp only [sentAux, hc', Bool.false_eq_true, if_false, if_true]
        have := ih [c] false
        simp only [sumLen, List.map_cons, List.sum_cons, List.length_reverse,
          List.length_cons] at this ⊢
        simp only [List.length_nil, List.length_cons] at this
        omega
      | false =>
        simp only [sentAux, hc', Bool.false_eq_true, if_false]
        have := ih (c :: acc) false
        simp only [List.length_cons] at this ⊢
        omega

lemma sentSplit_sumLen (text : List Char) : sumLen (sentSplit text) ≤ text.length := by
  have := sentAux_sumLen text [] false
  simpa using this

lemma sentencesOf_sumLen (text : List Char) : sumLen (sentencesOf text) ≤ text.length := by
  unfold sentencesOf
  split
  · simp [sumLen]
  · exact sentSplit_sumLen text

lemma sentAux_no_term (l : List Char) :
    ∀ acc : List Char, (∀ c ∈ l, isTerm c = false) → sentAux l acc false = [] := by
  induction l with
  | nil => intro acc _; simp [sentAux]
  | cons c rest ih =>
    intro acc h
    have hc : isTerm c = false := h c (by simp)
    simp only [sentAux, hc, Bool.false_eq_true, if_false]
    exact ih (c :: acc) (fun x hx => h x (by simp [hx]))

lemma flatten_term_mem {curG : List (List Char)} (hne : curG ≠ [])
    (h : ∀ s ∈ curG, EndsInTerm s) : ∃ c ∈ curG.flatten, isTerm c = true := by
  obtain ⟨s0, rest, rfl⟩ := List.exists_cons_of_ne_nil hne
  obtain ⟨r, c, hs, hc⟩ := h s0 (by simp)
  refine ⟨c, List.mem_flatten.mpr ⟨s0, by simp, ?_⟩, hc⟩
  rw [hs]
  simp

lemma flatten_ne_nil_of_endsInTerm {curG : List (List Char)} (hne : curG ≠ [])
    (h : ∀ s ∈ curG, EndsInTerm s) : curG.flatten ≠ [] := by
  obtain ⟨c, hc, _⟩ := flatten_term_mem hne h
  intro hflat
  rw [hflat] at hc
  simp at hc

lemma trim_flatten_ne_nil_of_endsInTerm {curG : List (List Char)} (hne : curG ≠ [])
    (h : ∀ s ∈ curG, EndsInTerm s) : trimJs curG.flatten ≠ [] := by
  obtain ⟨c, hc, hterm⟩ := flatten_term_mem hne h
  exact trimJs_ne_nil hc (isTerm_not_isWS hterm)

lemma chunkAux_ne_nil (maxSize : Nat) (hm : 1 ≤ maxSize) :
    ∀ (ss : List (List Char)) (cur : List Char),
      (∀ s ∈ ss, EndsInTerm s) → (cur = [] ∨ EndsInTerm cur) →
      ∀ c ∈ Ts.chunkAux maxSize ss cur, c ≠ [] := by
  intro ss
  induction ss with
  | nil =>
    intro cur _ _ c hc
    simp only [Ts.chunkAux] at hc
    split at hc
    · simp at hc
    · next hne =>
      rw [List.mem_singleton] at hc
      rw [hc]
      exact hne
  | cons s ss ih =>
    intro cur hss hcur c hc
    simp only [Ts.chunkAux] at hc
    split at hc
    · next hov =>
      split at hc
      · next hnil =>
        rw [hnil, List.length_nil, Nat.zero_add] at hov
        rcases List.mem_cons.mp hc with rfl | hmem
        · have hlen : (s.take maxSize).length = maxSize := by
            rw [List.length_take]
            omega
          exact List.ne_nil_of_length_pos (by omega)
        · exact ih (s.drop maxSize) (fun x hx => hss x (by simp [hx]))
            (Or.inr (endsInTerm_drop (hss s (by simp)) hov)) c hmem
      · next hnil =>
        rcases List.mem_cons.mp hc with rfl | hmem
        · rcases hcur with rfl | hcur
          · exact absurd rfl hnil
          · exact endsInTerm_trim_ne hcur
        · exact ih s (fun x hx => hss x (by simp [hx]))
            (Or.inr (hss s (by simp))) c hmem
    · exact ih (cur ++ s) (fun x hx => hss x (by simp [hx]))
        (Or.inr (endsInTerm_append (hss s (by simp)))) c hc

lemma chunkAux_single (maxSize : Nat) (hm : 1 ≤ maxSize) (t : List Char) :
    ∀ c ∈ Ts.chunkAux maxSize [t] [], c ≠ [] := by
  intro c hc
  simp only [Ts.chunkAux] at hc
  split at hc
  · next hov =>
    simp only [List.length_nil, Nat.zero_add] at hov
    rcases List.mem_cons.mp hc with rfl | hmem
    · have hlen : (t.take maxSize).length = maxSize := by
        rw [List.length_take]
        omega
      exact List.ne_nil_of_length_pos (by omega)
    · split at hmem
      · simp at hmem
      · next hne =>
        rw [List.mem_singleton] at hmem
        rw [hmem]
        exact hne
  · simp only [List.nil_append] at hc
    split at hc
    · simp at hc
    · next hne =>
      rw [List.mem_singleton] at hc
      rw [hc]
      exact hne

lemma chunkAux_le (maxSize : Nat) :
    ∀ (ss : List (List Char)) (cur : List Char),
      (∀ s ∈ ss, s.length ≤ maxSize) → cur.length ≤ maxSize →
      ∀ c ∈ Ts.chunkAux maxSize ss cur, c.length ≤ maxSize := by
  intro ss
  induction ss with
  | nil =>
    intro cur _ hcur c hc
    simp only [Ts.chunkAux] at hc
    split at hc
    · simp at hc
    · rw [List.mem_singleton] at hc
      rw [hc]
      exact le_trans (trimJs_length_le cur) hcur
  | cons s ss ih =>
    intro cur hss hcur c hc
    simp only [Ts.chunkAux] at hc
    split at hc
    · next hov =>
      split at hc
      · next hnil =>
        rw [hnil, List.length_nil, Nat.zero_add] at hov
        exact absurd (hss s (by simp)) (by omega)
      · rcases List.mem_cons.mp hc with rfl | hmem
        · exact le_trans (trimJs_length_le cur) hcur
        · exact ih s (fun x hx => hss x (by simp [hx])) (hss s (by simp)) c hmem
    · next hov =>
      refine ih (cur ++ s) (fun x hx => hss x (by simp [hx])) ?_ c hc
      rw [List.length_append]
      omega

lemma chunkAux_small (maxSize : Nat) :
    ∀ (ss : List (List Char)) (cur : List Char), cur.length + sumLen ss ≤ maxSize →
      Ts.chunkAux maxSize ss cur =
        if trimJs (cur ++ ss.flatten) = [] then [] else [trimJs (cur ++ ss.flatten)] := by
  intro ss
  induction ss with
  | nil =>
    intro cur _
    simp [Ts.chunkAux]
  | cons s ss ih =>
    intro cur h
    have hsum : cur.length + (s.length + sumLen ss) ≤ maxSize := by
      simpa [sumLen, Nat.add_assoc] using h
    simp only [Ts.chunkAux]
    rw [if_neg (by omega : ¬ maxSize < cur.length + s.length)]
    rw [ih (cur ++ s) (by rw [List.length_append]; omega)]
    simp [List.append_assoc]

lemma chunkAux_groups (maxSize : Nat) :
    ∀ (ss : List (List Char)) (curG : List (List Char)),
      (∀ s ∈ ss, s.length ≤ maxSize ∧ EndsInTerm s) →
      (∀ s ∈ curG, EndsInTerm s) → curG ≠ [] → curG.flatten.length ≤ maxSize →
      ∃ G : List (List (List Char)),
        G.flatten = curG ++ ss ∧ (∀ g ∈ G, g ≠ []) ∧
        Ts.chunkAux maxSize ss curG.flatten = G.map (fun g => trimJs g.flatten) := by
  intro ss
  induction ss with
  | nil =>
    intro curG _ hcur hne _
    refine ⟨[curG], by simp, by simpa using hne, ?_⟩
    simp only [Ts.chunkAux, List.map_cons, List.map_nil]
    rw [if_neg (trim_flatten_ne_nil_of_endsInTerm hne hcur)]
  | cons s ss ih =>
    intro curG hss hcur hne hlen
    simp only [Ts.chunkAux]
    by_cases hov : maxSize < curG.flatten.length + s.length
    · rw [if_pos hov, if_neg (flatten_ne_nil_of_endsInTerm hne hcur)]
      have hsingle : ([s] : List (List Char)).flatten = s := by simp
      obtain ⟨G', hGf, hGne, hGeq⟩ := ih [s]
        (fun x hx => hss x (by simp [hx]))
        (by simpa using (hss s (by simp)).2)
        (by simp)
        (by rw [hsingle]; exact (hss s (by simp)).1)
      rw [hsingle] at hGeq
      refine ⟨curG :: G', ?_, ?_, ?_⟩
      · rw [List.flatten_cons, hGf]
        simp
      · intro g hg
        rcases List.mem_cons.mp hg with rfl | hg
        · exact hne
        · exact hGne g hg
      · rw [List.map_cons, hGeq]
    · rw [if_neg hov]
      have hflat : (curG ++ [s]).flatten = curG.flatten ++ s := by simp
      obtain ⟨G, hGf, hGne, hGeq⟩ := ih (curG ++ [s])
        (fun x hx => hss x (by simp [hx]))
        (by
          intro x hx
          rcases List.mem_append.mp hx with hx | hx
          · exact hcur x hx
          · rw [List.mem_singleton] at hx
            rw [hx]
            exact (hss s (by simp)).2)
        (by simp)
        (by rw [hflat, List.length_append]; omega)
      rw [hflat] at hGeq
      refine ⟨G, ?_, hGne, hGeq⟩
      rw [hGf]
      simp

lemma chunkAux_groups_nil (maxSize : Nat) (ss : List (List Char))
    (hss : ∀ s ∈ ss, s.length ≤ maxSize ∧ EndsInTerm s) :
    ∃ G : List (List (List Char)),
      G.flatten = ss ∧ (∀ g ∈ G, g ≠ []) ∧
      Ts.chunkAux maxSize ss [] = G.map (fun g => trimJs g.flatten) := by
  cases ss with
  | nil =>
    refine ⟨[], by simp, by simp, ?_⟩
    simp [Ts.chunkAux, trimJs]
  | cons s ss =>
    simp only [Ts.chunkAux, List.length_nil, Nat.zero_add]
    rw [if_neg (by
      have := (hss s (by simp)).1
      omega)]
    have hsingle : ([s] : List (List Char)).flatten = s := by simp
    obtain ⟨G, hGf, hGne, hGeq⟩ := chunkAux_groups maxSize ss [s]
      (fun x hx => hss x (by simp [hx]))
      (by simpa using (hss s (by simp)).2)
      (by simp)
      (by rw [hsingle]; exact (hss s (by simp)).1)
    rw [hsingle] at hGeq
    refine ⟨G, by simpa using hGf, hGne, ?_⟩
    simpa using hGeq

/-- C1 (amended): for every text and maximum size at least 1, every chunk
returned by `chunkText` is non-empty; and whenever every sentence token of the
text fits in the maximum size, every chunk also has length at most the maximum
size.  (When some sentence token exceeds the maximum size, the hard-split
remainder may yield an oversized chunk, refuting the unconditional bound.) -/
theorem chunkText_chunks_nonempty_bounded (text : List Char) (maxSize : Nat)
    (hm : 1 ≤ maxSize) :
    (∀ c ∈ Ts.chunkText text maxSize, c ≠ []) ∧
    ((∀ s ∈ sentencesOf text, s.length ≤ maxSize) →
      ∀ c ∈ Ts.chunkText text maxSize, c.length ≤ maxSize) := by
  constructor
  · unfold Ts.chunkText sentencesOf
    split
    · exact chunkAux_single maxSize hm text
    · next h =>
      exact chunkAux_ne_nil maxSize hm _ []
        (fun s hs => sentSplit_endsInTerm s hs) (Or.inl rfl)
  · intro hs
    unfold Ts.chunkText
    exact chunkAux_le maxSize (sentencesOf text) [] hs (by simp)

/-- C1 witness: a concrete run of the amended statement. -/
theorem chunkText_chunks_nonempty_bounded_witness :
    (∀ c ∈ Ts.chunkText ("Hi. Yo.".toList) 4, c ≠ []) ∧
    ((∀ s ∈ sentencesOf ("Hi. Yo.".toList), s.length ≤ 4) →
      ∀ c ∈ Ts.chunkText ("Hi. Yo.".toList) 4, c.length ≤ 4) :=
  chunkText_chunks_nonempty_bounded ("Hi. Yo.".toList) 4 (by decide)

/-- C1 counterexample: with text `ab.` and maximum size 1, the hard-split
remainder `b.` is returned as a chunk of length 2, so not every chunk is
bounded by the maximum size. -/
theorem chunkText_oversize_chunk_counterexample :
    (1 : Nat) ≤ 1 ∧ ¬ (∀ c ∈ Ts.chunkText ("ab.".toList) 1, c.length ≤ 1) := by
  decide

/-- C2 (amended): `chunkText` preserves the content matched by the sentence
regex, not the entire text.  For text within the limit the result is the
single trimmed concatenation of its sentence tokens (empty when that trim is
empty); for longer text whose sentence tokens all fit in the limit, the chunks
are exactly the trimmed concatenations of consecutive non-empty groups of
whole sentence tokens covering every token in order — no token is split. -/
theorem chunkText_content (text : List Char) (limit : Nat) :
    (text.length ≤ limit →
      Ts.chunkText text limit =
        if trimJs (sentencesOf text).flatten = [] then []
        else [trimJs (sentencesOf text).flatten]) ∧
    (limit < text.length → (∀ s ∈ sentencesOf text, s.length ≤ limit) →
      ∃ G : List (List (List Char)),
        G.flatten = sentencesOf text ∧ (∀ g ∈ G, g ≠ []) ∧
        Ts.chunkText text limit = G.map (fun g => trimJs g.flatten)) := by
  constructor
  · intro h
    unfold Ts.chunkText
    have := chunkAux_small limit (sentencesOf text) []
      (by simpa using le_trans (sentencesOf_sumLen text) h)
    simpa using this
  · intro hlen hs
    unfold Ts.chunkText
    apply chunkAux_groups_nil
    intro s hsmem
    refine ⟨hs s hsmem, ?_⟩
    unfold sentencesOf at hsmem
    by_cases hsp : sentSplit text = []
    · rw [if_pos hsp, List.mem_singleton] at hsmem
      subst hsmem
      exfalso
      have := hs s (by unfold sentencesOf; rw [if_pos hsp]; simp)
      omega
    · rw [if_neg hsp] at hsmem
      exact sentSplit_endsInTerm s hsmem

/-- C2 witness: both halves of the amended statement on concrete runs. -/
theorem chunkText_content_witness :
    (Ts.chunkText ("a.b".toList) 10 =
      if trimJs (sentencesOf ("a.b".toList)).flatten = [] then []
      else [trimJs (sentencesOf ("a.b".toList)).flatten]) ∧
    (∃ G : List (List (List Char)),
      G.flatten = sentencesOf ("Hi. Yo.".toList) ∧ (∀ g ∈ G, g ≠ []) ∧
      Ts.chunkText ("Hi. Yo.".toList) 4 = G.map (fun g => trimJs g.flatten)) :=
  ⟨(chunkText_content ("a.b".toList) 10).1 (by decide),
   (chunkText_content ("Hi. Yo.".toList) 4).2 (by decide) (by decide)⟩

/-- C2 counterexample: the text `a.b` fits any limit of at least 3, yet
`chunkText` returns `["a."]` — the character after the last terminator is
dropped, so the result is not `[text]` even up to trimming. -/
theorem chunkText_drops_tail_counterexample :
    ("a.b".toList.length ≤ 10) ∧
    Ts.chunkText ("a.b".toList) 10 ≠ ["a.b".toList] ∧
    Ts.chunkText ("a.b".toList) 10 ≠ [trimJs ("a.b".toList)] := by
  decide

lemma allCalls_map (f : List Char → List Char) (target : List Char)
    (hf : ∀ c, f c ≠ []) :
    ∀ l : List (List Char),
      Ts.allCalls (Ts.translateCall (fun c _ => some (f c)) target) l = some (l.map f) := by
  intro l
  induction l with
  | nil => rfl
  | cons c cs ih =>
    simp only [Ts.allCalls, ih]
    simp [Ts.translateCall, hf c]

lemma allCalls_none {g : List Char → Option (List Char)} :
    ∀ {l : List (List Char)} {c : List Char}, c ∈ l → g c = none →
      Ts.allCalls g l = none := by
  intro l
  induction l with
  | nil =>
    intro c hc _
    simp at hc
  | cons a rest ih =>
    intro c hc hg
    rcases List.mem_cons.mp hc with rfl | hmem
    · simp [Ts.allCalls, hg]
    · simp only [Ts.allCalls, ih hmem hg]
      cases g a <;> rfl

/-- C3: `translateText` issues exactly one remote call (the whole text) when
the input is within the 25,000-character limit, and otherwise exactly one call
per chunk of `chunkText` at that limit; when the remote service translates
`c` to `f c` (never empty), the chunked result is the per-chunk translations
joined with single spaces in the original chunk order. -/
theorem translateText_call_policy (oracle : Ts.Oracle) (f : List Char → List Char)
    (text target : List Char) (hf : ∀ c, f c ≠ []) :
    ((Ts.translateText oracle text target).2 =
      if text.length ≤ 25000 then [text] else Ts.chunkText text 25000) ∧
    (text.length ≤ 25000 →
      Ts.translateText (fun c _ => some (f c)) text target = (some (f text), [text])) ∧
    (25000 < text.length →
      Ts.translateText (fun c _ => some (f c)) text target =
        (some (List.intercalate [' '] ((Ts.chunkText text 25000).map f)),
         Ts.chunkText text 25000)) := by
  refine ⟨?_, ?_, ?_⟩
  · by_cases h : text.length ≤ 25000 <;> simp [Ts.translateText, h]
  · intro h
    simp [Ts.translateText, h, Ts.translateCall, hf text]
  · intro h
    have h' : ¬ text.length ≤ 25000 := by omega
    simp [Ts.translateText, h', allCalls_map f target hf]

/-- C3 witness: a concrete single-call run. -/
theorem translateText_call_policy_witness :
    ((Ts.translateText (fun _ _ => none) ("Hi.".toList) ("es".toList)).2 =
      if ("Hi.".toList).length ≤ 25000 then ["Hi.".toList]
      else Ts.chunkText ("Hi.".toList) 25000) ∧
    (("Hi.".toList).length ≤ 25000 →
      Ts.translateText (fun c _ => some ((fun _ => "x".toList) c)) ("Hi.".toList) ("es".toList) =
        (some ((fun _ => "x".toList) ("Hi.".toList)), ["Hi.".toList])) ∧
    (25000 < ("Hi.".toList).length →
      Ts.translateText (fun c _ => some ((fun _ => "x".toList) c)) ("Hi.".toList) ("es".toList) =
        (some (List.intercalate [' ']
          ((Ts.chunkText ("Hi.".toList) 25000).map (fun _ => "x".toList))),
         Ts.chunkText ("Hi.".toList) 25000)) :=
  translateText_call_policy (fun _ _ => none) (fun _ => "x".toList)
    ("Hi.".toList) ("es".toList) (fun _ => (by decide : "x".toList ≠ []))

/-- C4: in the chunked path, if any single chunk's remote call fails (rejects
or returns an empty payload), the whole `translateText` operation fails: no
partial translation is returned. -/
theorem translateText_allOrNothing (oracle : Ts.Oracle) (text target : List Char)
    (h1 : 25000 < text.length)
    (h2 : ∃ c ∈ Ts.chunkText text 25000, Ts.translateCall oracle target c = none) :
    (Ts.translateText oracle text target).1 = none := by
  obtain ⟨c, hc, hnone⟩ := h2
  have h1' : ¬ text.length ≤ 25000 := by omega
  simp [Ts.translateText, h1', allCalls_none hc hnone]

lemma chunkAux_nil_eq (maxSize : Nat) (cur : List Char) :
    Ts.chunkAux maxSize [] cur = if trimJs cur = [] then [] else [trimJs cur] :=
  rfl

lemma chunkAux_cons_eq (maxSize : Nat) (s : List Char) (ss : List (List Char))
    (cur : List Char) :
    Ts.chunkAux maxSize (s :: ss) cur =
      if maxSize < cur.length + s.length then
        if cur = [] then
          s.take maxSize :: Ts.chunkAux maxSize ss (s.drop maxSize)
        else
          trimJs cur :: Ts.chunkAux maxSize ss s
      else
        Ts.chunkAux maxSize ss (cur ++ s) :=
  rfl

lemma chunkAux_cons_hard (maxSize : Nat) (s : List Char) (ss : List (List Char))
    (h : maxSize < s.length) :
    Ts.chunkAux maxSize (s :: ss) [] =
      s.take maxSize :: Ts.chunkAux maxSize ss (s.drop maxSize) := by
  rw [chunkAux_cons_eq]
  rw [if_pos (by simpa using h), if_pos rfl]

lemma chunkText_replicate_a :
    Ts.chunkText (List.replicate 25001 'a') 25000 =
      [List.replicate 25000 'a', ['a']] := by
  have hsent : sentSplit (List.replicate 25001 'a') = [] := by
    unfold sentSplit
    exact sentAux_no_term _ []
      (fun c hc => by rw [List.eq_of_mem_replicate hc]; decide)
  unfold Ts.chunkText sentencesOf
  rw [hsent, if_pos rfl]
  rw [chunkAux_cons_hard 25000 _ _ (by rw [List.length_replicate]; omega)]
  rw [List.take_replicate, List.drop_replicate]
  have h1 : min 25000 25001 = 25000 := by omega
  have h2 : 25001 - 25000 = 1 := by omega
  rw [h1, h2, List.replicate_one, chunkAux_nil_eq]
  rw [if_neg (by decide : ¬ trimJs ['a'] = [])]
  rw [show trimJs ['a'] = ['a'] from by decide]

/-- C4 witness: a 25,001-character text, a remote service rejecting every
call: the aggregate translation fails. -/
theorem translateText_allOrNothing_witness :
    25000 < (List.replicate 25001 'a').length ∧
    (Ts.translateText (fun _ _ => none) (List.replicate 25001 'a') ("es".toList)).1 = none := by
  have hlen : 25000 < (List.replicate 25001 'a').length := by
    rw [List.length_replicate]
    omega
  refine ⟨hlen, translateText_allOrNothing (fun _ _ => none) _ _ hlen ?_⟩
  refine ⟨['a'], ?_, rfl⟩
  rw [chunkText_replicate_a]
  exact List.mem_cons_of_mem _ (List.mem_singleton.mpr rfl)

/-- C10: language lookup is case-insensitive and total over exactly the three
registered keys: `getLanguageCode` returns `es`, `fr` or `zh-CN` when the
lowercased key is `spanish`, `french` or `mandarin` respectively, and no code
for every other string. -/
theorem getLanguageCode_total_spec (key : List Char) :
    getLanguageCode key =
      if key.map Char.toLower = "spanish".toList then some ("es".toList)
      else if key.map Char.toLower = "french".toList then some ("fr".toList)
      else if key.map Char.toLower = "mandarin".toList then some ("zh-CN".toList)
      else none := by
  unfold getLanguageCode SUPPORTED_LANGUAGES
  by_cases h1 : key.map Char.toLower = "spanish".toList
  · rw [if_pos h1, List.find?_cons_of_pos _ (by rw [beq_iff_eq]; exact h1.symm)]
    rfl
  · rw [if_neg h1, List.find?_cons_of_neg _
      (by rw [beq_iff_eq]; exact fun h => h1 h.symm)]
    by_cases h2 : key.map Char.toLower = "french".toList
    · rw [if_pos h2, List.find?_cons_of_pos _ (by rw [beq_iff_eq]; exact h2.symm)]
      rfl
    · rw [if_neg h2, List.find?_cons_of_neg _
        (by rw [beq_iff_eq]; exact fun h => h2 h.symm)]
      by_cases h3 : key.map Char.toLower = "mandarin".toList
      · rw [if_pos h3, List.find?_cons_of_pos _ (by rw [beq_iff_eq]; exact h3.symm)]
        rfl
      · rw [if_neg h3, List.find?_cons_of_neg _
          (by rw [beq_iff_eq]; exact fun h => h3 h.symm)]
        rfl

/-- C7: an unregistered language key makes `processPDFDocument` return the
error variant with the unsupported-language message, with no extraction call,
no generation call and no translation call. -/
theorem processPDFDocument_unsupported (oracle : Ts.Oracle)
    (raw : Except (List Char) (List Char))
    (gen : List Char → Except (List Char) Ts.LLMOutput)
    (targetLanguage now : List Char)
    (h : getLanguageCode targetLanguage = none) :
    Ts.processPDFDocument oracle raw gen targetLanguage now =
      (.error ⟨"Unsupported language: ".toList ++ targetLanguage, now⟩,
       ⟨false, false, []⟩) := by
  unfold Ts.processPDFDocument
  rw [h]

/-- C7 witness: the key `klingon` on a concrete run. -/
theorem processPDFDocument_unsupported_witness :
    getLanguageCode ("klingon".toList) = none ∧
    Ts.processPDFDocument (fun _ _ => none) (.ok []) (fun _ => .error [])
        ("klingon".toList) [] =
      (.error ⟨"Unsupported language: ".toList ++ "klingon".toList, []⟩,
       ⟨false, false, []⟩) :=
  ⟨by decide,
   processPDFDocument_unsupported (fun _ _ => none) (.ok []) (fun _ => .error [])
     ("klingon".toList) [] (by decide)⟩

/-- C8: when extraction yields empty or whitespace-only text, the pipeline
returns the error variant with the extraction message, and neither the
generator nor the translation service is called. -/
theorem processPDFDocument_empty_extraction (oracle : Ts.Oracle)
    (gen : List Char → Except (List Char) Ts.LLMOutput)
    (t targetLanguage now code : List Char)
    (h1 : getLanguageCode targetLanguage = some code)
    (h2 : trimJs t = []) :
    Ts.processPDFDocument oracle (.ok t) gen targetLanguage now =
      (.error ⟨"No text could be extracted from this PDF. It may be scanned image-only.".toList,
          now⟩,
       ⟨true, false, []⟩) := by
  unfold Ts.processPDFDocument Ts.extractTextFromPDF
  rw [h1]
  simp [h2]

/-- C8 witness: a whitespace-only extraction on a concrete run. -/
theorem processPDFDocument_empty_extraction_witness :
    getLanguageCode ("spanish".toList) = some ("es".toList) ∧
    trimJs ("  ".toList) = [] ∧
    Ts.processPDFDocument (fun _ _ => none) (.ok ("  ".toList)) (fun _ => .error [])
        ("spanish".toList) [] =
      (.error ⟨"No text could be extracted from this PDF. It may be scanned image-only.".toList,
          []⟩,
       ⟨true, false, []⟩) :=
  ⟨by decide, by decide,
   processPDFDocument_empty_extraction (fun _ _ => none) (fun _ => .error [])
     ("  ".toList) ("spanish".toList) [] ("es".toList) (by decide) (by decide)⟩

/-- C6: for all oracle behaviours, `processPDFDocument` returns exactly one of
the two result variants — the success variant, or the error variant carrying a
message and the run timestamp — with every internal failure caught at the
boundary (all stage failures are modelled as values, and the single catch of
the source is the match producing the error variant). -/
theorem processPDFDocument_result_shape (oracle : Ts.Oracle)
    (raw : Except (List Char) (List Char))
    (gen : List Char → Except (List Char) Ts.LLMOutput)
    (targetLanguage now : List Char) :
    (∃ r, (Ts.processPDFDocument oracle raw gen targetLanguage now).1 =
        .success r ∧ r.timestamp = now) ∨
    (∃ msg, (Ts.processPDFDocument oracle raw gen targetLanguage now).1 =
        .error ⟨msg, now⟩) := by
  unfold Ts.processPDFDocument
  cases getLanguageCode targetLanguage with
  | none => exact Or.inr ⟨_, rfl⟩
  | some code =>
    dsimp only
    cases Ts.extractTextFromPDF raw with
    | error e => exact Or.inr ⟨e, rfl⟩
    | ok fullText =>
      dsimp only
      cases gen fullText with
      | error e => exact Or.inr ⟨e, rfl⟩
      | ok out =>
        dsimp only
        cases (Ts.translateText oracle out.summary code).1 with
        | none =>
          cases (Ts.translateActionPlan oracle out.actionPlan code).1 with
          | none => exact Or.inr ⟨_, rfl⟩
          | some tp => exact Or.inr ⟨_, rfl⟩
        | some ts =>
          cases (Ts.translateActionPlan oracle out.actionPlan code).1 with
          | none => exact Or.inr ⟨_, rfl⟩
          | some tp => exact Or.inl ⟨_, rfl, rfl⟩

lemma translateActionPlan_cons_eq (oracle : Ts.Oracle) (item : ActionItem)
    (rest : List ActionItem) (code : List Char) :
    Ts.translateActionPlan oracle (item :: rest) code =
      ((match (Ts.translateItem oracle code item).1,
              (Ts.translateActionPlan oracle rest code).1 with
        | some r1, some rest1 => some (r1 :: rest1)
        | _, _ => none),
       (Ts.translateItem oracle code item).2 ++
         (Ts.translateActionPlan oracle rest code).2) :=
  rfl

lemma translateItem_eq (oracle : Ts.Oracle) (code : List Char) (item : ActionItem) :
    Ts.translateItem oracle code item =
      ((match (Ts.translateText oracle item.step code).1,
              (Ts.translateText oracle item.description code).1 with
        | some s1, some d1 => some { item with step := s1, description := d1 }
        | _, _ => none),
       (Ts.translateText oracle item.step code).2 ++
         (Ts.translateText oracle item.description code).2) :=
  rfl

/-- C9: when `translateActionPlan` succeeds, the result pairs with the input
item by item (same length, same order); each output item keeps the input
item's `priority` and `professionalType` unchanged, and its `step` and
`description` are exactly the translations of the input's fields. -/
theorem translateActionPlan_frame (oracle : Ts.Oracle) (plan : List ActionItem)
    (code : List Char) (res : List ActionItem)
    (h : (Ts.translateActionPlan oracle plan code).1 = some res) :
    res.length = plan.length ∧
    List.Forall₂ (fun o n =>
      n.priority = o.priority ∧ n.professionalType = o.professionalType ∧
      (Ts.translateText oracle o.step code).1 = some n.step ∧
      (Ts.translateText oracle o.description code).1 = some n.description) plan res := by
  have hf : List.Forall₂ (fun o n =>
      n.priority = o.priority ∧ n.professionalType = o.professionalType ∧
      (Ts.translateText oracle o.step code).1 = some n.step ∧
      (Ts.translateText oracle o.description code).1 = some n.description) plan res := by
    induction plan generalizing res with
    | nil =>
      simp only [Ts.translateActionPlan, Option.some.injEq] at h
      subst h
      exact List.Forall₂.nil
    | cons item rest ih =>
      rw [translateActionPlan_cons_eq] at h
      cases h1 : (Ts.translateItem oracle code item).1 with
      | none => rw [h1] at h; simp at h
      | some r1 =>
        rw [h1] at h
        cases h2 : (Ts.translateActionPlan oracle rest code).1 with
        | none => rw [h2] at h; simp at h
        | some rest1 =>
          rw [h2] at h
          simp only [Option.some.injEq] at h
          subst h
          refine List.Forall₂.cons ?_ (ih rest1 h2)
          rw [translateItem_eq] at h1
          cases hs : (Ts.translateText oracle item.step code).1 with
          | none => rw [hs] at h1; simp at h1
          | some s1 =>
            rw [hs] at h1
            cases hd : (Ts.translateText oracle item.description code).1 with
            | none => rw [hd] at h1; simp at h1
            | some d1 =>
              rw [hd] at h1
              simp only [Option.some.injEq] at h1
              subst h1
              exact ⟨rfl, rfl, rfl, rfl⟩
  exact ⟨hf.length_eq.symm, hf⟩

/-- Oracle of the C9 witness run: translate by prefixing a marker. -/
def c9Oracle : Ts.Oracle :=
  fun c _ => some ('T' :: c)

/-- Input plan of the C9 witness run. -/
def c9Plan : List ActionItem :=
  [⟨"Go".toList, "Do it.".toList, "high".toList, some ("tax_advisor".toList)⟩]

/-- Output plan of the C9 witness run. -/
def c9Res : List ActionItem :=
  [⟨'T' :: "Go".toList, 'T' :: "Do it.".toList, "high".toList,
    some ("tax_advisor".toList)⟩]

/-- C9 witness: the frame property on a concrete one-item plan. -/
theorem translateActionPlan_frame_witness :
    (Ts.translateActionPlan c9Oracle c9Plan ("es".toList)).1 = some c9Res ∧
    (c9Res.length = c9Plan.length ∧
     List.Forall₂ (fun o n =>
       n.priority = o.priority ∧ n.professionalType = o.professionalType ∧
       (Ts.translateText c9Oracle o.step ("es".toList)).1 = some n.step ∧
       (Ts.translateText c9Oracle o.description ("es".toList)).1 = some n.description)
       c9Plan c9Res) :=
  ⟨rfl, translateActionPlan_frame c9Oracle c9Plan ("es".toList) c9Res rfl⟩

/-- C5 (amended, current pipeline half): a success result of the translation.ts
pipeline implies every stage succeeded — the language was registered, a
non-blank text was extracted, generation succeeded, and the summary and every
action item were translated; no partial output reaches a success result. -/
theorem processPDFDocument_success_inversion (oracle : Ts.Oracle)
    (raw : Except (List Char) (List Char))
    (gen : List Char → Except (List Char) Ts.LLMOutput)
    (targetLanguage now : List Char) (r : Ts.ProcessingResult)
    (h : (Ts.processPDFDocument oracle raw gen targetLanguage now).1 = .success r) :
    ∃ code fullText out,
      getLanguageCode targetLanguage = some code ∧
      raw = .ok fullText ∧ trimJs fullText ≠ [] ∧
      gen fullText = .ok out ∧
      (Ts.translateText oracle out.summary code).1 = some r.translatedSummary ∧
      (Ts.translateActionPlan oracle out.actionPlan code).1 = some r.actionPlan ∧
      r.originalLength = fullText.length ∧ r.targetLanguage = targetLanguage := by
  unfold Ts.processPDFDocument at h
  cases hl : getLanguageCode targetLanguage with
  | none => rw [hl] at h; simp at h
  | some code =>
    rw [hl] at h
    dsimp only at h
    cases raw with
    | error e => simp [Ts.extractTextFromPDF] at h
    | ok t =>
      by_cases ht : trimJs t = []
      · simp [Ts.extractTextFromPDF, ht] at h
      · rw [show Ts.extractTextFromPDF (.ok t) = .ok t by
          simp [Ts.extractTextFromPDF, ht]] at h
        dsimp only at h
        cases hg : gen t with
        | error e => rw [hg] at h; simp at h
        | ok out =>
          rw [hg] at h
          dsimp only at h
          cases hs : (Ts.translateText oracle out.summary code).1 with
          | none =>
            cases hp : (Ts.translateActionPlan oracle out.actionPlan code).1 with
            | none => rw [hs, hp] at h; simp at h
            | some tp => rw [hs, hp] at h; simp at h
          | some ts =>
            cases hp : (Ts.translateActionPlan oracle out.actionPlan code).1 with
            | none => rw [hs, hp] at h; simp at h
            | some tp =>
              rw [hs, hp] at h
              dsimp only at h
              cases h
              exact ⟨code, t, out, rfl, rfl, ht, hg, hs, hp, rfl, rfl⟩

/-- Oracle of the C5 witness run: translate by prefixing a marker. -/
def c5wOracle : Ts.Oracle :=
  fun c _ => some ('T' :: c)

/-- Generator oracle of the C5 witness run. -/
def c5wGen : List Char → Except (List Char) Ts.LLMOutput :=
  fun _ => .ok ⟨"Sum.".toList, [⟨"Go".toList, "Do.".toList, "high".toList, none⟩]⟩

/-- Result of the C5 witness run. -/
def c5wRes : Ts.ProcessingResult :=
  ⟨'T' :: "Sum.".toList,
   [⟨'T' :: "Go".toList, 'T' :: "Do.".toList, "high".toList, none⟩],
   "spanish".toList, 5, 3, "T".toList⟩

/-- C5 witness: a fully successful concrete run of the current pipeline, and
the stage decomposition its success implies. -/
theorem processPDFDocument_success_inversion_witness :
    (Ts.processPDFDocument c5wOracle (.ok ("Hi.".toList)) c5wGen
        ("spanish".toList) ("T".toList)).1 = .success c5wRes ∧
    ∃ code fullText out,
      getLanguageCode ("spanish".toList) = some code ∧
      (.ok ("Hi.".toList) : Except (List Char) (List Char)) = .ok fullText ∧
      trimJs fullText ≠ [] ∧
      c5wGen fullText = .ok out ∧
      (Ts.translateText c5wOracle out.summary code).1 = some c5wRes.translatedSummary ∧
      (Ts.translateActionPlan c5wOracle out.actionPlan code).1 = some c5wRes.actionPlan ∧
      c5wRes.originalLength = fullText.length ∧
      c5wRes.targetLanguage = "spanish".toList :=
  ⟨rfl,
   processPDFDocument_success_inversion c5wOracle (.ok ("Hi.".toList)) c5wGen
     ("spanish".toList) ("T".toList) c5wRes rfl⟩

/-- C5 counterexample: a concrete run of the legacy translation.js pipeline in
which a remote translation call fails (the first action-item step is rejected
by the service — it is among the issued payloads and the oracle rejects it),
yet the pipeline returns the success variant, carrying the untranslated
English fallback action plan. -/
theorem jsPipeline_partial_success_counterexample :
    ∃ r : Js.ProcessingResult,
      (Js.processPDFDocument c5Oracle (.ok c5Text) ("spanish".toList)
          ("T".toList) 1000).1 = .success r ∧
      r.actionPlan = Js.fallbackPlan ∧
      r.actionPlan.map (fun i => i.step) =
        ["Review the full document".toList, "Identify key stakeholders".toList,
         "Create implementation timeline".toList] ∧
      ∃ c ∈ (Js.processPDFDocument c5Oracle (.ok c5Text) ("spanish".toList)
          ("T".toList) 1000).2,
        c5Oracle c (some ("es".toList)) = none := by
  refine ⟨⟨c5Text, 33, c5Text, 33, "OK".toList, Js.fallbackPlan,
      "spanish".toList, "es".toList, "T".toList⟩, rfl, rfl, by decide, ?_⟩
  exact ⟨"Review legal terms and obligations".toList, by decide, by decide⟩

